import Mathlib

/-!
Verification of the Monte Carlo scenario modeling engine in
`src/01_scenario_modeling/src/modeler.py`.

The embedding works over `ℚ`.  Two aspects of the Python code cannot be
represented exactly over the rationals and are abstracted as parameters:

* `noise : ℕ → ℚ` models the sequence of draws produced by
  `rng.normal(0, std * 0.3)` where `rng = np.random.default_rng(42)` is
  re-created with the fixed seed 42 inside each call of `project_metric`.
  The k-th call of `rng.normal` inside one invocation returns `noise k`.
  Because the seed is a fixed constant and the scale `std * 0.3` depends
  only on the historical series, the whole sequence is a function of the
  historical series alone — in particular it is the same across calls and
  does not depend on `months_ahead`, `scenario_multiplier` or
  `num_simulations`.

* `sqrtQ : ℚ → ℚ` models the real square root used by `np.std`
  (the `std` output column is `sqrt` of the population variance of a
  simulation column); exact square roots do not exist in `ℚ`.

Fallible numpy operations are modelled with `Option`: `np.percentile`
raises on an empty reduction axis, so `project_metric` returns `none`
exactly when `num_simulations = 0` and the horizon is positive.
-/

namespace ScenarioModeling

/-- Round half to even, the rounding used by Python `round` and
`np.round`: nearest integer, ties going to the even integer. -/
def roundHalfEven (x : ℚ) : ℤ :=
  if x - ⌊x⌋ < 1/2 then ⌊x⌋
  else if 1/2 < x - ⌊x⌋ then ⌊x⌋ + 1
  else if ⌊x⌋ % 2 = 0 then ⌊x⌋ else ⌊x⌋ + 1

/-- `round(x, 2)` of Python / `np.round(x, 2)`: round half to even at the
second decimal place. -/
def round2 (x : ℚ) : ℚ := (roundHalfEven (100 * x) : ℚ) / 100

theorem roundHalfEven_cases (x : ℚ) :
    roundHalfEven x = ⌊x⌋ ∨ roundHalfEven x = ⌊x⌋ + 1 := by
  unfold roundHalfEven
  split_ifs <;> simp

theorem roundHalfEven_le (x : ℚ) : (roundHalfEven x : ℚ) ≤ x + 1/2 := by
  have hfl := Int.floor_le x
  unfold roundHalfEven
  split_ifs with h1 h2 h3 <;> push_cast <;> linarith

theorem le_roundHalfEven (x : ℚ) : x - 1/2 ≤ (roundHalfEven x : ℚ) := by
  have hfl := Int.floor_le x
  have hlt := Int.lt_floor_add_one x
  unfold roundHalfEven
  split_ifs with h1 h2 h3 <;> push_cast <;> linarith

theorem roundHalfEven_mono {x y : ℚ} (h : x ≤ y) :
    roundHalfEven x ≤ roundHalfEven y := by
  rcases lt_or_eq_of_le (Int.floor_le_floor h) with hf | hf
  · rcases roundHalfEven_cases x with hx | hx <;>
      rcases roundHalfEven_cases y with hy | hy <;> rw [hx, hy] <;> omega
  · have hr : x - (⌊x⌋ : ℚ) ≤ y - (⌊x⌋ : ℚ) := sub_le_sub_right h _
    unfold roundHalfEven
    rw [← hf]
    split_ifs <;> first | omega | (exfalso; linarith)

theorem round2_mono {x y : ℚ} (h : x ≤ y) : round2 x ≤ round2 y := by
  unfold round2
  have := roundHalfEven_mono (mul_le_mul_of_nonneg_left h (by norm_num : (0:ℚ) ≤ 100))
  have h2 : (roundHalfEven (100 * x) : ℚ) ≤ (roundHalfEven (100 * y) : ℚ) := by
    exact_mod_cast this
  linarith

theorem round2_strict_of_gap {x d : ℚ} (hd : 1/100 < d) :
    round2 x < round2 (x + d) := by
  unfold round2
  have h1 : (roundHalfEven (100 * x) : ℚ) ≤ 100 * x + 1/2 := roundHalfEven_le _
  have h2 : 100 * (x + d) - 1/2 ≤ (roundHalfEven (100 * (x + d)) : ℚ) :=
    le_roundHalfEven _
  have : (roundHalfEven (100 * x) : ℚ) < (roundHalfEven (100 * (x + d)) : ℚ) := by
    linarith
  linarith

/-- Sorting a list of values ascending (`np.sort`, used inside
`np.percentile`). -/
def sortVals (xs : List ℚ) : List ℚ := List.insertionSort (· ≤ ·) xs

/-- Linear interpolation at virtual index `v` into a sorted list `s`:
the value between `s[⌊v⌋]` and `s[min (⌊v⌋+1) (len-1)]` at fraction
`v - ⌊v⌋`.  This is numpy's default (`linear`) interpolation step. -/
def interpSorted (s : List ℚ) (v : ℚ) : ℚ :=
  s.getD (⌊v⌋).toNat 0 +
    (v - ⌊v⌋) *
      (s.getD (min ((⌊v⌋).toNat + 1) (s.length - 1)) 0 - s.getD (⌊v⌋).toNat 0)

/-- `np.percentile(xs, q)` with the default linear interpolation between
closest ranks: on the ascending sort of `xs` (length `n`), interpolate at
the virtual index `v = q/100 * (n-1)`.  numpy raises on an empty array;
the `0` returned here for `[]` is never exposed because `project_metric`
guards that case. -/
def percentile (q : ℚ) (xs : List ℚ) : ℚ :=
  if (sortVals xs).length = 0 then 0
  else interpSorted (sortVals xs) (q / 100 * (((sortVals xs).length : ℚ) - 1))

/-- Arithmetic mean (`np.mean`); `0` on `[]` models numpy's NaN, never
exposed by `project_metric`. -/
def meanQ (xs : List ℚ) : ℚ := xs.sum / xs.length

/-- Population variance (`np.var`, ddof = 0); `np.std` is its square
root. -/
def pvarQ (xs : List ℚ) : ℚ :=
  (xs.map (fun x => (x - meanQ xs) ^ 2)).sum / xs.length

/-- Trend estimation of `project_metric` (modeler.py line 33-35):
`recent = historical.tail(6)`;
`trend = (recent.iloc[-1] - recent.iloc[0]) / max(len(recent) - 1, 1)
 if len(recent) > 1 else 0`. -/
def trendOf (historical : List ℚ) : ℚ :=
  let recent := historical.drop (historical.length - 6)
  if 1 < recent.length then
    (recent.getLast?.getD 0 - recent.head?.getD 0) /
      ((max (recent.length - 1) 1 : ℕ) : ℚ)
  else 0

/-- `start = historical.iloc[-1]` (modeler.py line 38). -/
def startOf (historical : List ℚ) : ℚ := historical.getLast?.getD 0

/-- The inner simulation loop (modeler.py lines 41-45) for one path:
starting from `current`, each step adds the drift `trend * multiplier`
plus the noise draw with the given index, and records the new value.
`ks` is the list of noise-draw indices consumed by this path. -/
def pathFrom (noise : ℕ → ℚ) (drift : ℚ) : ℚ → List ℕ → List ℚ
  | _, [] => []
  | current, k :: ks =>
    (current + drift + noise k) :: pathFrom noise drift (current + drift + noise k) ks

/-- Path of simulation number `i` (0-based): the source draws noise
sim-major, so path `i` consumes draw indices `i*M, i*M+1, ..., i*M+M-1`
where `M = months_ahead`. -/
def simPath (noise : ℕ → ℚ) (drift start : ℚ) (M i : ℕ) : List ℚ :=
  pathFrom noise drift start ((List.range M).map (fun k => i * M + k))

/-- Column `j` (0-based future month) of the `num_simulations × months_ahead`
simulation matrix: entry `i` is `simulations[i, j]`. -/
def column (noise : ℕ → ℚ) (drift start : ℚ) (M n j : ℕ) : List ℚ :=
  (List.range n).map (fun i => (simPath noise drift start M i).getD j 0)

/-- One row of the returned ProjectionSummary DataFrame
(columns of modeler.py lines 47-56). -/
structure SummaryRow where
  month : ℕ
  p10 : ℚ
  p25 : ℚ
  median : ℚ
  p75 : ℚ
  p90 : ℚ
  mean : ℚ
  std : ℚ
deriving DecidableEq

/-- The rows of the DataFrame built in modeler.py lines 47-56: row `j`
(month `j+1`) reduces column `j` of the simulation matrix by the five
percentiles, the mean and the standard deviation, each rounded to two
decimals. -/
def projectRows (noise : ℕ → ℚ) (sqrtQ : ℚ → ℚ) (historical : List ℚ)
    (months_ahead : ℕ) (scenario_multiplier : ℚ) (num_simulations : ℕ) :
    List SummaryRow :=
  let trend := trendOf historical
  let start := startOf historical
  let drift := trend * scenario_multiplier
  (List.range months_ahead).map (fun j =>
    let col := column noise drift start months_ahead num_simulations j
    ⟨j + 1,
     round2 (percentile 10 col),
     round2 (percentile 25 col),
     round2 (percentile 50 col),
     round2 (percentile 75 col),
     round2 (percentile 90 col),
     round2 (meanQ col),
     round2 (sqrtQ (pvarQ col))⟩)

/-- `project_metric` (modeler.py lines 13-56).  `noise` and `sqrtQ` are the
abstractions described in the file header.  The result is `none` exactly
when `np.percentile` raises: the reduced axis (the simulation count) is
empty while at least one column exists.  No input validation is performed
by the source. -/
def project_metric (noise : ℕ → ℚ) (sqrtQ : ℚ → ℚ) (historical : List ℚ)
    (months_ahead : ℕ) (scenario_multiplier : ℚ) (num_simulations : ℕ) :
    Option (List SummaryRow) :=
  if num_simulations = 0 ∧ 1 ≤ months_ahead then none
  else some (projectRows noise sqrtQ historical months_ahead
    scenario_multiplier num_simulations)

/-- One record of the raw input table (columns facility, metric, date,
value); dates are modelled as integers, which is all the sorting needs. -/
structure Obs where
  facility : String
  metric : String
  date : ℤ
  value : ℚ
deriving DecidableEq

/-- Ordered insertion by date, building block of `sortByDate`. -/
def insertByDate (r : Obs) : List Obs → List Obs
  | [] => [r]
  | s :: ss => if r.date ≤ s.date then r :: s :: ss else s :: insertByDate r ss

/-- `sort_values("date")` on a record list: sort ascending by date. -/
def sortByDate (rs : List Obs) : List Obs := rs.foldr insertByDate []

/-- `pandas.unique`: deduplicate keeping the order of first appearance. -/
def uniqueKeys : List String → List String
  | [] => []
  | x :: xs => x :: uniqueKeys (xs.filter (fun y => y ≠ x))
termination_by l => l.length
decreasing_by
  simpa using Nat.lt_succ_of_le (List.length_filter_le _ _)

/-- The time-sorted value series of one (facility, metric) group
(modeler.py lines 76-80). -/
def valuesFor (df : List Obs) (f m : String) : List ℚ :=
  (sortByDate (df.filter (fun r => r.facility == f && r.metric == m))).map
    (fun r => r.value)

/-- Effectful map over a list in the `Option` monad: `none` as soon as one
element maps to `none`, otherwise `some` of the mapped list.  Used to model
Python loops whose body may raise. -/
def optMap (g : α → Option β) : List α → Option (List β)
  | [] => some []
  | a :: as =>
    match g a, optMap g as with
    | some b, some bs => some (b :: bs)
    | _, _ => none

/-- `run_all_scenarios` (modeler.py lines 59-90), parametrized by the
`SETTINGS["scenarios"]` configuration it reads (`variation` as an ordered
name/multiplier list, `num_simulations` and `time_horizons`).  A group
whose sorted series has fewer than 3 observations is skipped; every
surviving group is projected once per scenario with the shared horizon
`max(time_horizons)`.  (Python `max` on an empty list raises; the fold
with default 0 stands in for it — the claims only touch non-empty
configurations.) -/
def run_all_scenarios (noise : ℕ → ℚ) (sqrtQ : ℚ → ℚ) (df : List Obs)
    (variations : List (String × ℚ)) (num_sims : ℕ) (horizons : List ℕ) :
    Option (List (String × List (String × List (String × List SummaryRow)))) :=
  let maxH := horizons.foldl max 0
  optMap (fun f =>
      (optMap (fun m =>
          (optMap (fun v =>
              (project_metric noise sqrtQ (valuesFor df f m) maxH v.2
                num_sims).map (fun t => (v.1, t)))
            variations).map (fun ss => (m, ss)))
        ((uniqueKeys (df.map (fun r => r.metric))).filter
          (fun m => 3 ≤ (valuesFor df f m).length))).map (fun ms => (f, ms)))
    (uniqueKeys (df.map (fun r => r.facility)))

/-- One row of the flat table of `scenarios_to_flat_df`
(modeler.py lines 100-109). -/
structure FlatRow where
  facility : String
  metric : String
  scenario : String
  month : ℕ
  p10 : ℚ
  median : ℚ
  p90 : ℚ
  mean : ℚ
deriving DecidableEq

/-- `scenarios_to_flat_df` (modeler.py lines 93-110): one flat row per
(facility, metric, scenario, month), in nested iteration order. -/
def scenarios_to_flat_df
    (results : List (String × List (String × List (String × List SummaryRow)))) :
    List FlatRow :=
  results.flatMap (fun p =>
    p.2.flatMap (fun q =>
      q.2.flatMap (fun t =>
        t.2.map (fun row =>
          ⟨p.1, q.1, t.1, row.month, row.p10, row.median, row.p90, row.mean⟩))))

/-- One row of the endpoint summary of `scenarios_endpoint_summary`
(modeler.py lines 120-129). -/
structure EndpointRow where
  facility : String
  metric : String
  scenario : String
  projected_median : ℚ
  projected_p10 : ℚ
  projected_p90 : ℚ
  uncertainty_range : ℚ
  projection_months : ℕ
deriving DecidableEq

/-- `scenarios_endpoint_summary` (modeler.py lines 113-130): one row per
(facility, metric, scenario) built from the last row (`iloc[-1]`) of that
triple's ProjectionSummary; `iloc[-1]` raises on an empty table, modelled
by `none`. -/
def scenarios_endpoint_summary
    (results : List (String × List (String × List (String × List SummaryRow)))) :
    Option (List EndpointRow) :=
  (optMap (fun p =>
      (optMap (fun q =>
          (optMap (fun t =>
              (t.2.getLast?).map (fun final =>
                (⟨p.1, q.1, t.1, final.median, final.p10, final.p90,
                  round2 (final.p90 - final.p10), t.2.length⟩ : EndpointRow)))
            q.2))
        p.2).map List.flatten)
    results).map List.flatten

/-! ### Facts about sorting and the percentile interpolation -/

theorem sortVals_sorted (xs : List ℚ) : (sortVals xs).Sorted (· ≤ ·) :=
  List.sorted_insertionSort _ xs

theorem sortVals_perm (xs : List ℚ) : List.Perm (sortVals xs) xs :=
  List.perm_insertionSort _ xs

theorem sortVals_length (xs : List ℚ) : (sortVals xs).length = xs.length :=
  (sortVals_perm xs).length_eq

theorem sorted_getD_mono {s : List ℚ} (hs : s.Sorted (· ≤ ·)) {i j : ℕ}
    (hij : i ≤ j) (hj : j < s.length) : s.getD i 0 ≤ s.getD j 0 := by
  have hi : i < s.length := lt_of_le_of_lt hij hj
  rw [List.getD_eq_getElem s 0 hi, List.getD_eq_getElem s 0 hj]
  simpa using hs.rel_get_of_le (show (⟨i, hi⟩ : Fin s.length) ≤ ⟨j, hj⟩ from hij)

theorem sortVals_map_add (xs : List ℚ) (c : ℚ) :
    sortVals (xs.map (fun x => x + c)) = (sortVals xs).map (fun x => x + c) := by
  refine List.eq_of_perm_of_sorted
    ((sortVals_perm _).trans (((sortVals_perm xs).map _).symm))
    (sortVals_sorted _) ?_
  exact List.Pairwise.map _ (fun a b hab => add_le_add_right hab c)
    (sortVals_sorted xs)

theorem getD_map_in {s : List ℚ} (f : ℚ → ℚ) {i : ℕ} (h : i < s.length) :
    (s.map f).getD i 0 = f (s.getD i 0) := by
  rw [List.getD_eq_getElem _ 0 (by simpa using h), List.getD_eq_getElem s 0 h,
    List.getElem_map]

theorem floor_toNat_le {v : ℚ} {n : ℕ} (hn : 1 ≤ n) (hv : v ≤ (n : ℚ) - 1) :
    (⌊v⌋).toNat ≤ n - 1 := by
  have hcast : ((n - 1 : ℕ) : ℚ) = (n : ℚ) - 1 := by
    push_cast [hn]; ring
  have hfl : ⌊v⌋ ≤ ((n - 1 : ℕ) : ℤ) := by
    have := Int.floor_le_floor hv
    rwa [← hcast, Int.floor_natCast] at this
  exact Int.toNat_le.mpr hfl

theorem interpSorted_map_add {s : List ℚ} {v : ℚ} (hn : 1 ≤ s.length)
    (hv0 : 0 ≤ v) (hv1 : v ≤ (s.length : ℚ) - 1) (c : ℚ) :
    interpSorted (s.map (fun x => x + c)) v = interpSorted s v + c := by
  have hi : (⌊v⌋).toNat ≤ s.length - 1 := floor_toNat_le hn hv1
  have hilt : (⌊v⌋).toNat < s.length := by omega
  have hmlt : min ((⌊v⌋).toNat + 1) (s.length - 1) < s.length := by omega
  unfold interpSorted
  rw [List.length_map, getD_map_in _ hilt, getD_map_in _ hmlt]
  ring

theorem interpSorted_between {s : List ℚ} (hs : s.Sorted (· ≤ ·)) {v : ℚ}
    (hn : 1 ≤ s.length) (hv0 : 0 ≤ v) (hv1 : v ≤ (s.length : ℚ) - 1) :
    s.getD (⌊v⌋).toNat 0 ≤ interpSorted s v ∧
      interpSorted s v ≤ s.getD (min ((⌊v⌋).toNat + 1) (s.length - 1)) 0 := by
  have hi : (⌊v⌋).toNat ≤ s.length - 1 := floor_toNat_le hn hv1
  have hmlt : min ((⌊v⌋).toNat + 1) (s.length - 1) < s.length := by omega
  have hlohi : s.getD (⌊v⌋).toNat 0 ≤
      s.getD (min ((⌊v⌋).toNat + 1) (s.length - 1)) 0 :=
    sorted_getD_mono hs (by omega) hmlt
  have hg0 : 0 ≤ v - ⌊v⌋ := by
    have := Int.floor_le v; linarith
  have hg1 : v - ⌊v⌋ < 1 := by
    have := Int.lt_floor_add_one v; linarith
  constructor
  · unfold interpSorted; nlinarith
  · unfold interpSorted; nlinarith

theorem interpSorted_mono {s : List ℚ} (hs : s.Sorted (· ≤ ·)) {v w : ℚ}
    (hn : 1 ≤ s.length) (hv0 : 0 ≤ v) (hvw : v ≤ w)
    (hw1 : w ≤ (s.length : ℚ) - 1) :
    interpSorted s v ≤ interpSorted s w := by
  have hv1 : v ≤ (s.length : ℚ) - 1 := le_trans hvw hw1
  have hw0 : 0 ≤ w := le_trans hv0 hvw
  have hiv : (⌊v⌋).toNat ≤ s.length - 1 := floor_toNat_le hn hv1
  have hiw : (⌊w⌋).toNat ≤ s.length - 1 := floor_toNat_le hn hw1
  have hfvw : ⌊v⌋ ≤ ⌊w⌋ := Int.floor_le_floor hvw
  have hcastv : ((⌊v⌋).toNat : ℚ) = (⌊v⌋ : ℚ) := by
    exact_mod_cast Int.toNat_of_nonneg (Int.floor_nonneg.mpr hv0)
  have hcastw : ((⌊w⌋).toNat : ℚ) = (⌊w⌋ : ℚ) := by
    exact_mod_cast Int.toNat_of_nonneg (Int.floor_nonneg.mpr hw0)
  rcases Nat.lt_or_ge (⌊v⌋).toNat (⌊w⌋).toNat with hlt | hge
  · -- lower cell strictly below upper cell
    have h1 : interpSorted s v ≤
        s.getD (min ((⌊v⌋).toNat + 1) (s.length - 1)) 0 :=
      (interpSorted_between hs hn hv0 hv1).2
    have h2 : s.getD (⌊w⌋).toNat 0 ≤ interpSorted s w :=
      (interpSorted_between hs hn hw0 hw1).1
    have h3 : s.getD (min ((⌊v⌋).toNat + 1) (s.length - 1)) 0 ≤
        s.getD (⌊w⌋).toNat 0 :=
      sorted_getD_mono hs (by omega) (by omega)
    linarith
  · -- same cell: the floors agree
    have heq : (⌊v⌋).toNat = (⌊w⌋).toNat := le_antisymm
      (by
        have := Int.toNat_le_toNat hfvw
        omega) hge
    have heqz : ⌊v⌋ = ⌊w⌋ := by
      have hv' : 0 ≤ ⌊v⌋ := Int.floor_nonneg.mpr hv0
      have hw' : 0 ≤ ⌊w⌋ := Int.floor_nonneg.mpr hw0
      omega
    have hlohi : s.getD (⌊v⌋).toNat 0 ≤
        s.getD (min ((⌊v⌋).toNat + 1) (s.length - 1)) 0 :=
      sorted_getD_mono hs (by omega) (by omega)
    unfold interpSorted
    rw [← heq, ← heqz]
    nlinarith [sub_le_sub_right hvw ((⌊v⌋ : ℚ))]

theorem percentile_ne_nil_eq {q : ℚ} {xs : List ℚ} (hx : xs ≠ []) :
    percentile q xs =
      interpSorted (sortVals xs) (q / 100 * ((xs.length : ℚ) - 1)) := by
  have hn : (sortVals xs).length ≠ 0 := by
    rw [sortVals_length]
    simpa using (List.length_pos.mpr hx).ne'
  unfold percentile
  rw [if_neg hn, sortVals_length]

theorem percentile_map_add {xs : List ℚ} (hx : xs ≠ []) {q : ℚ}
    (h0 : 0 ≤ q) (h100 : q ≤ 100) (c : ℚ) :
    percentile q (xs.map (fun x => x + c)) = percentile q xs + c := by
  have hxm : xs.map (fun x => x + c) ≠ [] := by
    simpa using hx
  have hlen : 1 ≤ (sortVals xs).length := by
    rw [sortVals_length]
    exact List.length_pos.mpr hx
  rw [percentile_ne_nil_eq hxm, percentile_ne_nil_eq hx, List.length_map,
    sortVals_map_add]
  have hone : (1 : ℚ) ≤ xs.length := by
    exact_mod_cast List.length_pos.mpr hx
  apply interpSorted_map_add hlen
  · apply mul_nonneg (by positivity)
    linarith
  · rw [sortVals_length]
    have h1 : q / 100 ≤ 1 := by
      rw [div_le_one (by norm_num : (0:ℚ) < 100)]; exact h100
    have h2 : (0:ℚ) ≤ (xs.length : ℚ) - 1 := by linarith
    nlinarith

theorem percentile_mono {xs : List ℚ} (hx : xs ≠ []) {q1 q2 : ℚ}
    (h0 : 0 ≤ q1) (h12 : q1 ≤ q2) (h100 : q2 ≤ 100) :
    percentile q1 xs ≤ percentile q2 xs := by
  have hlen : 1 ≤ (sortVals xs).length := by
    rw [sortVals_length]
    exact List.length_pos.mpr hx
  have hone : (1 : ℚ) ≤ xs.length := by
    exact_mod_cast List.length_pos.mpr hx
  rw [percentile_ne_nil_eq hx, percentile_ne_nil_eq hx]
  have hnn : (0:ℚ) ≤ (xs.length : ℚ) - 1 := by linarith
  apply interpSorted_mono (sortVals_sorted xs) hlen
  · exact mul_nonneg (by positivity) hnn
  · exact mul_le_mul_of_nonneg_right (by linarith) hnn
  · rw [sortVals_length]
    have h1 : q2 / 100 ≤ 1 := by
      rw [div_le_one (by norm_num : (0:ℚ) < 100)]; exact h100
    nlinarith

/-! ### Facts about mean and population variance -/

theorem sum_map_add (xs : List ℚ) (c : ℚ) :
    (xs.map (fun x => x + c)).sum = xs.sum + xs.length * c := by
  induction xs with
  | nil => simp
  | cons a as ih =>
    simp only [List.map_cons, List.sum_cons, List.length_cons, ih]
    push_cast
    ring

theorem meanQ_map_add {xs : List ℚ} (hx : xs ≠ []) (c : ℚ) :
    meanQ (xs.map (fun x => x + c)) = meanQ xs + c := by
  have hn : (xs.length : ℚ) ≠ 0 := by
    exact_mod_cast (List.length_pos.mpr hx).ne'
  unfold meanQ
  rw [List.length_map, sum_map_add]
  field_simp
  ring

theorem pvarQ_map_add (xs : List ℚ) (c : ℚ) :
    pvarQ (xs.map (fun x => x + c)) = pvarQ xs := by
  rcases eq_or_ne xs [] with rfl | hx
  · rfl
  · unfold pvarQ
    rw [List.length_map, meanQ_map_add hx, List.map_map]
    have hmap : List.map ((fun x => (x - (meanQ xs + c)) ^ 2) ∘ fun x => x + c) xs
        = List.map (fun x => (x - meanQ xs) ^ 2) xs := by
      apply List.map_congr_left
      intro a _
      simp only [Function.comp_apply]
      ring
    rw [hmap]

/-! ### Closed form of the simulation paths -/

theorem pathFrom_getD (noise : ℕ → ℚ) (drift : ℚ) :
    ∀ (ks : List ℕ) (current : ℚ) (j : ℕ), j < ks.length →
      (pathFrom noise drift current ks).getD j 0 =
        current + (j + 1 : ℕ) * drift + ((ks.take (j + 1)).map noise).sum := by
  intro ks
  induction ks with
  | nil => intro current j hj; simp at hj
  | cons k ks ih =>
    intro current j hj
    cases j with
    | zero => simp [pathFrom]
    | succ j =>
      have hj2 : j < ks.length := by simpa using hj
      have := ih (current + drift + noise k) j hj2
      simp only [pathFrom, List.getD_cons_succ, List.take_succ_cons,
        List.map_cons, List.sum_cons] at this ⊢
      rw [this]
      push_cast
      ring

theorem simPath_getD (noise : ℕ → ℚ) (drift start : ℚ) (M i j : ℕ)
    (hj : j < M) :
    (simPath noise drift start M i).getD j 0 =
      start + (j + 1 : ℕ) * drift +
        ((List.range (j + 1)).map (fun k => noise (i * M + k))).sum := by
  unfold simPath
  rw [pathFrom_getD _ _ _ _ _ (by simpa using hj)]
  have hmin : min (j + 1) M = j + 1 := by omega
  congr 1
  rw [← List.map_take, List.take_range, hmin, List.map_map]
  rfl

/-- Changing the drift shifts every entry of column `j` by exactly
`(j+1) * (difference of the drifts)`; the noise contribution is
unchanged because the draw indices do not depend on the drift. -/
theorem column_shift (noise : ℕ → ℚ) (d1 d2 start : ℚ) (M n j : ℕ)
    (hj : j < M) :
    column noise d2 start M n j =
      (column noise d1 start M n j).map (fun x => x + (j + 1 : ℕ) * (d2 - d1)) := by
  unfold column
  rw [List.map_map]
  apply List.map_congr_left
  intro i _
  simp only [Function.comp_apply]
  rw [simPath_getD _ _ _ _ _ _ hj, simPath_getD _ _ _ _ _ _ hj]
  ring

theorem column_length (noise : ℕ → ℚ) (drift start : ℚ) (M n j : ℕ) :
    (column noise drift start M n j).length = n := by
  simp [column]

theorem column_ne_nil (noise : ℕ → ℚ) (drift start : ℚ) (M : ℕ) {n : ℕ}
    (j : ℕ) (hn : 1 ≤ n) : column noise drift start M n j ≠ [] := by
  have := column_length noise drift start M n j
  intro h
  rw [h] at this
  simp at this
  omega

/-! ### Access lemmas for `projectRows` and `project_metric` -/

theorem projectRows_length (noise : ℕ → ℚ) (sqrtQ : ℚ → ℚ)
    (historical : List ℚ) (M : ℕ) (mult : ℚ) (n : ℕ) :
    (projectRows noise sqrtQ historical M mult n).length = M := by
  simp [projectRows]

theorem projectRows_row (noise : ℕ → ℚ) (sqrtQ : ℚ → ℚ) (historical : List ℚ)
    (M : ℕ) (mult : ℚ) (n : ℕ) {row : SummaryRow}
    (h : row ∈ projectRows noise sqrtQ historical M mult n) :
    ∃ j < M,
      row = ⟨j + 1,
        round2 (percentile 10 (column noise (trendOf historical * mult)
          (startOf historical) M n j)),
        round2 (percentile 25 (column noise (trendOf historical * mult)
          (startOf historical) M n j)),
        round2 (percentile 50 (column noise (trendOf historical * mult)
          (startOf historical) M n j)),
        round2 (percentile 75 (column noise (trendOf historical * mult)
          (startOf historical) M n j)),
        round2 (percentile 90 (column noise (trendOf historical * mult)
          (startOf historical) M n j)),
        round2 (meanQ (column noise (trendOf historical * mult)
          (startOf historical) M n j)),
        round2 (sqrtQ (pvarQ (column noise (trendOf historical * mult)
          (startOf historical) M n j)))⟩ := by
  unfold projectRows at h
  obtain ⟨j, hj, hrow⟩ := List.mem_map.mp h
  exact ⟨j, List.mem_range.mp hj, hrow.symm⟩

theorem projectRows_getLast (noise : ℕ → ℚ) (sqrtQ : ℚ → ℚ)
    (historical : List ℚ) {M : ℕ} (hM : 1 ≤ M) (mult : ℚ) (n : ℕ) (d : SummaryRow) :
    (projectRows noise sqrtQ historical M mult n).getLast?.getD d =
      ⟨M,
        round2 (percentile 10 (column noise (trendOf historical * mult)
          (startOf historical) M n (M - 1))),
        round2 (percentile 25 (column noise (trendOf historical * mult)
          (startOf historical) M n (M - 1))),
        round2 (percentile 50 (column noise (trendOf historical * mult)
          (startOf historical) M n (M - 1))),
        round2 (percentile 75 (column noise (trendOf historical * mult)
          (startOf historical) M n (M - 1))),
        round2 (percentile 90 (column noise (trendOf historical * mult)
          (startOf historical) M n (M - 1))),
        round2 (meanQ (column noise (trendOf historical * mult)
          (startOf historical) M n (M - 1))),
        round2 (sqrtQ (pvarQ (column noise (trendOf historical * mult)
          (startOf historical) M n (M - 1))))⟩ := by
  obtain ⟨m, rfl⟩ : ∃ m, M = m + 1 := ⟨M - 1, by omega⟩
  unfold projectRows
  rw [List.getLast?_map, List.range_succ]
  simp

theorem project_metric_eq_some (noise : ℕ → ℚ) (sqrtQ : ℚ → ℚ)
    (historical : List ℚ) (M : ℕ) (mult : ℚ) {n : ℕ} (hn : 1 ≤ n) :
    project_metric noise sqrtQ historical M mult n =
      some (projectRows noise sqrtQ historical M mult n) := by
  unfold project_metric
  rw [if_neg]
  omega

/-! ### Helpers for the `Option`-monadic list map -/

theorem optMap_eq_some_of {α β : Type} (g : α → Option β) (f : α → β) :
    ∀ l : List α, (∀ a ∈ l, g a = some (f a)) → optMap g l = some (l.map f) := by
  intro l
  induction l with
  | nil => intro _; rfl
  | cons a as ih =>
    intro h
    have ha := h a (List.mem_cons_self a as)
    have has := ih (fun x hx => h x (List.mem_cons_of_mem a hx))
    simp [optMap, ha, has]

theorem optMap_mem {α β : Type} {g : α → Option β} :
    ∀ {l : List α} {ys : List β}, optMap g l = some ys →
      ∀ a ∈ l, ∃ y ∈ ys, g a = some y := by
  intro l
  induction l with
  | nil =>
    intro ys h a ha
    simp at ha
  | cons b bs ih =>
    intro ys h a ha
    rcases hb : g b with _ | y
    · simp [optMap, hb] at h
    · rcases hbs : optMap g bs with _ | zs
      · simp [optMap, hb, hbs] at h
      · rw [optMap, hb, hbs] at h
        simp only [Option.some.injEq] at h
        subst h
        rcases List.mem_cons.mp ha with rfl | hmem
        · exact ⟨y, List.mem_cons_self _ _, hb⟩
        · obtain ⟨z, hz, hgz⟩ := ih hbs a hmem
          exact ⟨z, List.mem_cons_of_mem _ hz, hgz⟩

/-! ### Claim theorems -/

/-- Claim C1: for every historical series, months_ahead, scenario_multiplier
and num_simulations, two invocations of `project_metric` with identical
inputs return identical ProjectionSummary tables (every stat in every row
equal).  The random generator is re-seeded with the fixed constant 42
inside each call, so the draw sequence `noise` is a fixed function of the
inputs and appears here as one shared parameter; no generator state is
threaded between calls. -/
theorem project_metric_deterministic (noise : ℕ → ℚ) (sqrtQ : ℚ → ℚ)
    (historical : List ℚ) (M : ℕ) (mult : ℚ) (n : ℕ) {r1 r2 : List SummaryRow}
    (h1 : project_metric noise sqrtQ historical M mult n = some r1)
    (h2 : project_metric noise sqrtQ historical M mult n = some r2) :
    r1 = r2 ∧ ∀ (j : ℕ) (d : SummaryRow), r1.getD j d = r2.getD j d := by
  rw [h1] at h2
  injection h2 with h
  subst h
  exact ⟨rfl, fun _ _ => rfl⟩

/-- Witness for C1 at a concrete input. -/
theorem project_metric_deterministic_witness :
    projectRows (fun _ => 0) (fun _ => 0) [1, 2] 1 1 1 =
      projectRows (fun _ => 0) (fun _ => 0) [1, 2] 1 1 1 :=
  (project_metric_deterministic (fun _ => 0) (fun _ => 0) [1, 2] 1 1 1
    rfl rfl).1

/-- Claim C2: for every non-empty historical series, the trend used by
`project_metric` is computed over the window of the last at most 6
observations (all of them when fewer than 6 exist) as
`(last - first) / (count - 1)`; a one-element window gives trend 0, and
the division's denominator is clamped to at least 1. -/
theorem trend_estimation (historical : List ℚ) (hne : historical ≠ []) :
    (historical.length ≤ 6 →
      historical.drop (historical.length - 6) = historical) ∧
    (6 ≤ historical.length →
      (historical.drop (historical.length - 6)).length = 6) ∧
    ((historical.drop (historical.length - 6)).length = 1 →
      trendOf historical = 0) ∧
    (2 ≤ (historical.drop (historical.length - 6)).length →
      trendOf historical =
        ((historical.drop (historical.length - 6)).getLast?.getD 0 -
            (historical.drop (historical.length - 6)).head?.getD 0) /
          (((historical.drop (historical.length - 6)).length : ℚ) - 1)) ∧
    1 ≤ max ((historical.drop (historical.length - 6)).length - 1) 1 := by
  have hlen : (historical.drop (historical.length - 6)).length =
      historical.length - (historical.length - 6) := List.length_drop _ _
  refine ⟨?_, ?_, ?_, ?_, ?_⟩
  · intro h
    have h0 : historical.length - 6 = 0 := by omega
    rw [h0, List.drop_zero]
  · intro h
    omega
  · intro h
    unfold trendOf
    rw [if_neg (by omega)]
  · intro h
    unfold trendOf
    rw [if_pos (by omega)]
    have hmax : max ((historical.drop (historical.length - 6)).length - 1) 1 =
        (historical.drop (historical.length - 6)).length - 1 := by omega
    rw [hmax]
    congr 1
    have h1 : 1 ≤ (historical.drop (historical.length - 6)).length := by omega
    push_cast [h1]
    ring
  · omega

/-- Witness for C2 at the concrete series `[1, 2, 3]`. -/
theorem trend_estimation_witness :
    ([1, 2, 3] : List ℚ) ≠ [] ∧
      ((([1, 2, 3] : List ℚ).length ≤ 6 →
        ([1, 2, 3] : List ℚ).drop (([1, 2, 3] : List ℚ).length - 6) = [1, 2, 3]) ∧
      (6 ≤ ([1, 2, 3] : List ℚ).length →
        (([1, 2, 3] : List ℚ).drop (([1, 2, 3] : List ℚ).length - 6)).length = 6) ∧
      ((([1, 2, 3] : List ℚ).drop (([1, 2, 3] : List ℚ).length - 6)).length = 1 →
        trendOf [1, 2, 3] = 0) ∧
      (2 ≤ (([1, 2, 3] : List ℚ).drop (([1, 2, 3] : List ℚ).length - 6)).length →
        trendOf [1, 2, 3] =
          ((([1, 2, 3] : List ℚ).drop (([1, 2, 3] : List ℚ).length - 6)).getLast?.getD 0 -
              (([1, 2, 3] : List ℚ).drop (([1, 2, 3] : List ℚ).length - 6)).head?.getD 0) /
            (((([1, 2, 3] : List ℚ).drop (([1, 2, 3] : List ℚ).length - 6)).length : ℚ) - 1)) ∧
      1 ≤ max ((([1, 2, 3] : List ℚ).drop (([1, 2, 3] : List ℚ).length - 6)).length - 1) 1) :=
  ⟨by simp, trend_estimation [1, 2, 3] (by simp)⟩

/-- Claim C3: for every historical series with at least 2 observations and
every horizon `M ≥ 1` (and at least one simulation path, which the orchestrator
always supplies), `project_metric` returns a table with exactly `M` rows whose
month column is `1, 2, ..., M` in order. -/
theorem horizon_rows (noise : ℕ → ℚ) (sqrtQ : ℚ → ℚ) (historical : List ℚ)
    (M : ℕ) (mult : ℚ) (n : ℕ) (hh : 2 ≤ historical.length) (hM : 1 ≤ M)
    (hn : 1 ≤ n) :
    ∃ rows, project_metric noise sqrtQ historical M mult n = some rows ∧
      rows.length = M ∧
      rows.map (fun r => r.month) = (List.range M).map (fun j => j + 1) := by
  refine ⟨_, project_metric_eq_some _ _ _ _ _ hn, projectRows_length _ _ _ _ _ _, ?_⟩
  unfold projectRows
  rw [List.map_map]
  rfl

/-- Witness for C3 at a concrete input. -/
theorem horizon_rows_witness :
    (2 ≤ ([1, 2] : List ℚ).length ∧ 1 ≤ 2 ∧ 1 ≤ 1) ∧
      ∃ rows, project_metric (fun _ => 0) (fun _ => 0) [1, 2] 2 1 1 = some rows ∧
        rows.length = 2 ∧
        rows.map (fun r => r.month) = (List.range 2).map (fun j => j + 1) :=
  ⟨⟨by simp, by omega, by omega⟩,
    horizon_rows (fun _ => 0) (fun _ => 0) [1, 2] 2 1 1 (by simp) (by omega)
      (by omega)⟩

/-- Claim C4: in every row of every ProjectionSummary returned by
`project_metric`, the percentile columns satisfy
`p10 ≤ p25 ≤ median ≤ p75 ≤ p90`, even after the 2-decimal rounding. -/
theorem percentile_columns_monotone (noise : ℕ → ℚ) (sqrtQ : ℚ → ℚ)
    (historical : List ℚ) (M : ℕ) (mult : ℚ) (n : ℕ) {rows : List SummaryRow}
    (hsome : project_metric noise sqrtQ historical M mult n = some rows)
    (row : SummaryRow) (hrow : row ∈ rows) :
    row.p10 ≤ row.p25 ∧ row.p25 ≤ row.median ∧ row.median ≤ row.p75 ∧
      row.p75 ≤ row.p90 := by
  unfold project_metric at hsome
  by_cases hcond : n = 0 ∧ 1 ≤ M
  · rw [if_pos hcond] at hsome
    cases hsome
  · rw [if_neg hcond] at hsome
    injection hsome with hrows
    subst hrows
    obtain ⟨j, hj, rfl⟩ := projectRows_row _ _ _ _ _ _ hrow
    have hn : 1 ≤ n := by
      rcases Nat.eq_zero_or_pos n with h0 | h0
      · exact absurd ⟨h0, by omega⟩ hcond
      · omega
    have hcol := column_ne_nil noise (trendOf historical * mult)
      (startOf historical) M j hn
    exact ⟨round2_mono (percentile_mono hcol (by norm_num) (by norm_num)
        (by norm_num)),
      round2_mono (percentile_mono hcol (by norm_num) (by norm_num)
        (by norm_num)),
      round2_mono (percentile_mono hcol (by norm_num) (by norm_num)
        (by norm_num)),
      round2_mono (percentile_mono hcol (by norm_num) (by norm_num)
        (by norm_num))⟩

section RatEval

attribute [local semireducible] Rat.mul Rat.add Rat.sub Rat.inv

/-- Witness for C4 at a concrete input: the single row of a one-month,
one-path projection of `[1, 2]`. -/
theorem percentile_columns_monotone_witness :
    (project_metric (fun _ => 0) (fun _ => 0) [1, 2] 1 1 1 =
        some (projectRows (fun _ => 0) (fun _ => 0) [1, 2] 1 1 1)) ∧
      (⟨1, 3, 3, 3, 3, 3, 3, 0⟩ : SummaryRow) ∈
        projectRows (fun _ => 0) (fun _ => 0) [1, 2] 1 1 1 ∧
      ((3 : ℚ) ≤ 3 ∧ (3 : ℚ) ≤ 3 ∧ (3 : ℚ) ≤ 3 ∧ (3 : ℚ) ≤ 3) :=
  ⟨rfl, by decide,
    percentile_columns_monotone (fun _ => 0) (fun _ => 0) [1, 2] 1 1 1 rfl
      ⟨1, 3, 3, 3, 3, 3, 3, 0⟩ (by decide)⟩

end RatEval

/-- Claim C5 is FALSE on the code: `project_metric` performs no input
validation.  At `months_ahead = 0 < 1` it raises nothing and returns
normally with an empty (0-row) table, contradicting "raises a clear
validation error before any simulation work begins". -/
theorem no_validation_counterexample :
    project_metric (fun _ => 0) (fun _ => 0) [1, 2, 3] 0 1 200 = some [] := by
  rfl

/-- Claim C5 as amended: the code performs no up-front validation.  For
`months_ahead = 0` the call returns successfully with an empty table for
any `num_simulations`; for `num_simulations = 0` and `months_ahead ≥ 1`
the failure is a low-level numpy error raised only during the final
percentile aggregation (modelled as `none`), not a prior validation
error. -/
theorem no_validation_behavior (noise : ℕ → ℚ) (sqrtQ : ℚ → ℚ)
    (historical : List ℚ) (mult : ℚ) (n M : ℕ) (hM : 1 ≤ M) :
    project_metric noise sqrtQ historical 0 mult n = some [] ∧
      project_metric noise sqrtQ historical M mult 0 = none := by
  constructor
  · unfold project_metric
    rw [if_neg (by omega)]
    simp [projectRows]
  · unfold project_metric
    rw [if_pos ⟨rfl, hM⟩]

/-- Witness for the amended C5 at concrete inputs. -/
theorem no_validation_behavior_witness :
    1 ≤ 3 ∧
      (project_metric (fun _ => 0) (fun _ => 0) [1, 2] 0 1 5 = some [] ∧
        project_metric (fun _ => 0) (fun _ => 0) [1, 2] 3 1 0 = none) :=
  ⟨by omega, no_validation_behavior (fun _ => 0) (fun _ => 0) [1, 2] 1 5 3
    (by omega)⟩

/-- Claim C10: two calls of `project_metric` on the same historical series,
horizon and simulation count that differ only in the scenario multiplier
draw identical noise sequences (the generator is re-created with the same
fixed seed, so the shared `noise` stream models both calls); consequently
every simulated path value at future month `m = j+1` differs by exactly
`m * trend * (m2 - m1)`, every percentile and the mean of month `m` shift
by exactly that amount before the final rounding, and the per-month
standard deviation (equivalently its square, the population variance) is
identical across scenarios. -/
theorem multiplier_shift (noise : ℕ → ℚ) (historical : List ℚ) (M n : ℕ)
    (m1 m2 : ℚ) (hn : 1 ≤ n) (j : ℕ) (hj : j < M) :
    (∀ i, i < n →
      (column noise (trendOf historical * m2) (startOf historical) M n j).getD i 0 =
        (column noise (trendOf historical * m1) (startOf historical) M n j).getD i 0 +
          ((j : ℚ) + 1) * trendOf historical * (m2 - m1)) ∧
    (∀ q : ℚ, 0 ≤ q → q ≤ 100 →
      percentile q
          (column noise (trendOf historical * m2) (startOf historical) M n j) =
        percentile q
            (column noise (trendOf historical * m1) (startOf historical) M n j) +
          ((j : ℚ) + 1) * trendOf historical * (m2 - m1)) ∧
    meanQ (column noise (trendOf historical * m2) (startOf historical) M n j) =
      meanQ (column noise (trendOf historical * m1) (startOf historical) M n j) +
        ((j : ℚ) + 1) * trendOf historical * (m2 - m1) ∧
    pvarQ (column noise (trendOf historical * m2) (startOf historical) M n j) =
      pvarQ (column noise (trendOf historical * m1) (startOf historical) M n j) := by
  have hshift := column_shift noise (trendOf historical * m1)
    (trendOf historical * m2) (startOf historical) M n j hj
  have hlen := column_length noise (trendOf historical * m1)
    (startOf historical) M n j
  have hne : column noise (trendOf historical * m1) (startOf historical) M n j
      ≠ [] := column_ne_nil _ _ _ M j hn
  have hc : ((j + 1 : ℕ) : ℚ) *
      (trendOf historical * m2 - trendOf historical * m1) =
      ((j : ℚ) + 1) * trendOf historical * (m2 - m1) := by
    push_cast
    ring
  refine ⟨?_, ?_, ?_, ?_⟩
  · intro i hi
    rw [hshift, getD_map_in _ (by rw [hlen]; exact hi), hc]
  · intro q hq0 hq100
    rw [hshift, percentile_map_add hne hq0 hq100, hc]
  · rw [hshift, meanQ_map_add hne, hc]
  · rw [hshift, pvarQ_map_add]

/-- Claim C9: with a positive estimated trend, raising the scenario
multiplier from 0 to a large positive value (large enough that the drift
accumulated at the final month exceeds the 2-decimal rounding grain,
`M * trend * mult > 1/100`) strictly increases the median reported by
`project_metric` at the final month. -/
theorem trend_sign_effect (noise : ℕ → ℚ) (sqrtQ : ℚ → ℚ)
    (historical : List ℚ) (M n : ℕ) (mult : ℚ) (hM : 1 ≤ M) (hn : 1 ≤ n)
    (htrend : 0 < trendOf historical) (hmult : 0 < mult)
    (hlarge : 1/100 < (M : ℚ) * trendOf historical * mult) (d : SummaryRow)
    {r0 r1 : List SummaryRow}
    (h0 : project_metric noise sqrtQ historical M 0 n = some r0)
    (h1 : project_metric noise sqrtQ historical M mult n = some r1) :
    (r0.getLast?.getD d).median < (r1.getLast?.getD d).median := by
  rw [project_metric_eq_some _ _ _ _ _ hn] at h0 h1
  injection h0 with e0
  injection h1 with e1
  subst e0
  subst e1
  rw [projectRows_getLast _ _ _ hM _ _ d, projectRows_getLast _ _ _ hM _ _ d]
  have hj : M - 1 < M := by omega
  have hmed := (multiplier_shift noise historical M n 0 mult hn (M - 1) hj).2.1
    50 (by norm_num) (by norm_num)
  simp only []
  rw [hmed]
  have hcast : ((M - 1 : ℕ) : ℚ) + 1 = (M : ℚ) := by
    have h1 : (1 : ℕ) ≤ M := hM
    push_cast [h1]
    ring
  rw [hcast]
  have hd : 1/100 < (M : ℚ) * trendOf historical * (mult - 0) := by
    simpa using hlarge
  exact round2_strict_of_gap hd

/-- Witness for C10 at a concrete input. -/
theorem multiplier_shift_witness :
    (1 ≤ 1 ∧ 0 < 1) ∧
      ((∀ i, i < 1 →
        (column (fun _ => 0) (trendOf [1, 2] * 1) (startOf [1, 2]) 1 1 0).getD i 0 =
          (column (fun _ => 0) (trendOf [1, 2] * 0) (startOf [1, 2]) 1 1 0).getD i 0 +
            (((0 : ℕ) : ℚ) + 1) * trendOf [1, 2] * (1 - 0)) ∧
      (∀ q : ℚ, 0 ≤ q → q ≤ 100 →
        percentile q
            (column (fun _ => 0) (trendOf [1, 2] * 1) (startOf [1, 2]) 1 1 0) =
          percentile q
              (column (fun _ => 0) (trendOf [1, 2] * 0) (startOf [1, 2]) 1 1 0) +
            (((0 : ℕ) : ℚ) + 1) * trendOf [1, 2] * (1 - 0)) ∧
      meanQ (column (fun _ => 0) (trendOf [1, 2] * 1) (startOf [1, 2]) 1 1 0) =
        meanQ (column (fun _ => 0) (trendOf [1, 2] * 0) (startOf [1, 2]) 1 1 0) +
          (((0 : ℕ) : ℚ) + 1) * trendOf [1, 2] * (1 - 0) ∧
      pvarQ (column (fun _ => 0) (trendOf [1, 2] * 1) (startOf [1, 2]) 1 1 0) =
        pvarQ (column (fun _ => 0) (trendOf [1, 2] * 0) (startOf [1, 2]) 1 1 0)) :=
  ⟨⟨le_refl 1, Nat.zero_lt_one⟩,
    multiplier_shift (fun _ => 0) [1, 2] 1 1 0 1 (le_refl 1) 0 Nat.zero_lt_one⟩

section

attribute [local semireducible] Rat.mul Rat.add Rat.sub Rat.inv

/-- Witness for C9 at a concrete input: the series `[0, 10]` has trend 10. -/
theorem trend_sign_effect_witness :
    (1 ≤ 1 ∧ 1 ≤ 1 ∧ 0 < trendOf [0, 10] ∧ (0 : ℚ) < 1 ∧
        1/100 < ((1 : ℕ) : ℚ) * trendOf [0, 10] * 1) ∧
      ((projectRows (fun _ => 0) (fun _ => 0) [0, 10] 1 0 1).getLast?.getD
          ⟨0, 0, 0, 0, 0, 0, 0, 0⟩).median <
        ((projectRows (fun _ => 0) (fun _ => 0) [0, 10] 1 1 1).getLast?.getD
          ⟨0, 0, 0, 0, 0, 0, 0, 0⟩).median :=
  ⟨⟨le_refl 1, le_refl 1, by decide, by norm_num, by decide⟩,
    trend_sign_effect (fun _ => 0) (fun _ => 0) [0, 10] 1 1 1 (le_refl 1)
      (le_refl 1) (by decide) (by norm_num) (by decide)
      ⟨0, 0, 0, 0, 0, 0, 0, 0⟩ rfl rfl⟩

end

/-- Claim C7: for every (facility, metric, scenario) triple in
ScenarioResults, the endpoint-summary table contains the corresponding row
whose projected_median / projected_p10 / projected_p90 equal the median /
p10 / p90 of the LAST row of that triple's ProjectionSummary, whose
uncertainty_range equals `round(p90 - p10, 2)` at that last row, and whose
projection_months equals the number of rows of that ProjectionSummary. -/
theorem endpoint_consistency
    (results : List (String × List (String × List (String × List SummaryRow))))
    {rows : List EndpointRow}
    (hsome : scenarios_endpoint_summary results = some rows)
    (f : String) (ms : List (String × List (String × List SummaryRow)))
    (hf : (f, ms) ∈ results)
    (m : String) (ss : List (String × List SummaryRow)) (hm : (m, ss) ∈ ms)
    (s : String) (tbl : List SummaryRow) (hs : (s, tbl) ∈ ss)
    (final : SummaryRow) (hfin : tbl.getLast? = some final) :
    (⟨f, m, s, final.median, final.p10, final.p90,
      round2 (final.p90 - final.p10), tbl.length⟩ : EndpointRow) ∈ rows := by
  unfold scenarios_endpoint_summary at hsome
  obtain ⟨nested, hnested, hrows⟩ := Option.map_eq_some'.mp hsome
  obtain ⟨y, hy, hFy⟩ := optMap_mem hnested (f, ms) hf
  obtain ⟨inner, hinner, hyflat⟩ := Option.map_eq_some'.mp hFy
  obtain ⟨z, hz, hGz⟩ := optMap_mem hinner (m, ss) hm
  obtain ⟨w, hw, hHw⟩ := optMap_mem hGz (s, tbl) hs
  simp only [hfin, Option.map_some'] at hHw
  injection hHw with hwval
  subst hrows
  subst hyflat
  rw [hwval]
  exact List.mem_flatten.mpr ⟨inner.flatten, hy,
    List.mem_flatten.mpr ⟨z, hz, hw⟩⟩

section

attribute [local semireducible] Rat.mul Rat.add Rat.sub Rat.inv

/-- Witness for C7 at a concrete one-triple ScenarioResults value. -/
theorem endpoint_consistency_witness :
    (scenarios_endpoint_summary
        [("A", [("x", [("baseline", [⟨1, 1, 2, 3, 4, 5, 3, 0⟩])])])] =
      some [⟨"A", "x", "baseline", 3, 1, 5, 4, 1⟩]) ∧
      (⟨"A", "x", "baseline", (3 : ℚ), 1, 5, 4, 1⟩ : EndpointRow) ∈
        ([⟨"A", "x", "baseline", 3, 1, 5, 4, 1⟩] : List EndpointRow) :=
  ⟨by decide,
    endpoint_consistency
      [("A", [("x", [("baseline", [⟨1, 1, 2, 3, 4, 5, 3, 0⟩])])])] (by decide)
      "A" [("x", [("baseline", [⟨1, 1, 2, 3, 4, 5, 3, 0⟩])])] (by simp)
      "x" [("baseline", [⟨1, 1, 2, 3, 4, 5, 3, 0⟩])] (by simp)
      "baseline" [⟨1, 1, 2, 3, 4, 5, 3, 0⟩] (by simp)
      ⟨1, 1, 2, 3, 4, 5, 3, 0⟩ rfl⟩

end

theorem length_flatMap_sum {α β : Type} (l : List α) (f : α → List β) :
    (l.flatMap f).length = (l.map (fun a => (f a).length)).sum := by
  rw [List.length_flatMap]
  rfl

/-! ### Key-uniqueness machinery for the flattened table -/

theorem nodup_flatMap_keyed {α β K T : Type} (l : List α) (F : α → List β)
    (key : β → K) (tag : α → T) (proj : K → T)
    (htag : (l.map tag).Nodup)
    (hin : ∀ a ∈ l, ((F a).map key).Nodup)
    (hproj : ∀ a ∈ l, ∀ b ∈ F a, proj (key b) = tag a) :
    ((l.flatMap F).map key).Nodup := by
  rw [List.map_flatMap, List.nodup_flatMap]
  refine ⟨fun a ha => hin a ha, ?_⟩
  have hp : l.Pairwise (fun a b => tag a ≠ tag b) := List.pairwise_map.mp htag
  refine List.Pairwise.imp_of_mem ?_ hp
  intro a b ha hb hne x hxa hxb
  obtain ⟨u, hu, hxu⟩ := List.mem_map.mp hxa
  obtain ⟨w, hw, hxw⟩ := List.mem_map.mp hxb
  apply hne
  calc tag a = proj (key u) := (hproj a ha u hu).symm
    _ = proj x := by rw [hxu]
    _ = proj (key w) := by rw [hxw]
    _ = tag b := hproj b hb w hw

theorem nodup_keys_of_table (f m s : String) (tbl : List SummaryRow)
    (h : (tbl.map (fun r => r.month)).Nodup) :
    ((tbl.map (fun row => (⟨f, m, s, row.month, row.p10, row.median, row.p90,
        row.mean⟩ : FlatRow))).map
      (fun r => (r.facility, r.metric, r.scenario, r.month))).Nodup := by
  rw [List.map_map]
  have hcomp : ((fun r : FlatRow => (r.facility, r.metric, r.scenario, r.month)) ∘
      (fun row : SummaryRow => (⟨f, m, s, row.month, row.p10, row.median,
        row.p90, row.mean⟩ : FlatRow))) =
      (fun mo => (f, m, s, mo)) ∘ (fun row : SummaryRow => row.month) := rfl
  rw [hcomp, ← List.map_map]
  refine List.Nodup.map ?_ h
  intro a b hab
  simpa using hab

/-- Claim C8: for every ScenarioResults value (with distinct facility,
metric and scenario keys and per-table distinct month values, as
`run_all_scenarios` produces, and all tables of the shared horizon length
`N`), the flat table contains exactly `Σ over groups (num_scenarios × N)`
rows, and every (facility, metric, scenario, month) key in it is
unique. -/
theorem flat_table_shape
    (results : List (String × List (String × List (String × List SummaryRow))))
    (N : ℕ)
    (hfac : (results.map Prod.fst).Nodup)
    (hmet : ∀ p ∈ results, (p.2.map Prod.fst).Nodup)
    (hsc : ∀ p ∈ results, ∀ q ∈ p.2, (q.2.map Prod.fst).Nodup)
    (htbl : ∀ p ∈ results, ∀ q ∈ p.2, ∀ t ∈ q.2,
      t.2.length = N ∧ (t.2.map (fun r => r.month)).Nodup) :
    (scenarios_to_flat_df results).length =
      (results.map (fun p => (p.2.map (fun q => q.2.length * N)).sum)).sum ∧
    ((scenarios_to_flat_df results).map
      (fun r => (r.facility, r.metric, r.scenario, r.month))).Nodup := by
  constructor
  · unfold scenarios_to_flat_df
    rw [length_flatMap_sum]
    refine congrArg (fun l : List ℕ => l.sum) (List.map_congr_left ?_)
    intro p hp
    rw [length_flatMap_sum]
    refine congrArg (fun l : List ℕ => l.sum) (List.map_congr_left ?_)
    intro q hq
    rw [length_flatMap_sum]
    have hmap2 : q.2.map (fun t => ((t.2.map (fun row =>
        (⟨p.1, q.1, t.1, row.month, row.p10, row.median, row.p90,
          row.mean⟩ : FlatRow))).length)) = q.2.map (fun _ => N) :=
      List.map_congr_left (fun t ht => by
        rw [List.length_map]
        exact (htbl p hp q hq t ht).1)
    rw [hmap2]
    simp [List.map_const]
  · unfold scenarios_to_flat_df
    refine nodup_flatMap_keyed results _ _ Prod.fst (fun k => k.1) hfac ?_ ?_
    · intro p hp
      refine nodup_flatMap_keyed p.2 _ _ Prod.fst (fun k => k.2.1)
        (hmet p hp) ?_ ?_
      · intro q hq
        refine nodup_flatMap_keyed q.2 _ _ Prod.fst (fun k => k.2.2.1)
          (hsc p hp q hq) ?_ ?_
        · intro t ht
          exact nodup_keys_of_table p.1 q.1 t.1 t.2 (htbl p hp q hq t ht).2
        · intro t ht b hb
          obtain ⟨row, hrow, hb2⟩ := List.mem_map.mp hb
          rw [← hb2]
      · intro q hq b hb
        obtain ⟨t, ht, hbt⟩ := List.mem_flatMap.mp hb
        obtain ⟨row, hrow, hb2⟩ := List.mem_map.mp hbt
        rw [← hb2]
    · intro p hp b hb
      obtain ⟨q, hq, hbq⟩ := List.mem_flatMap.mp hb
      obtain ⟨t, ht, hbt⟩ := List.mem_flatMap.mp hbq
      obtain ⟨row, hrow, hb2⟩ := List.mem_map.mp hbt
      rw [← hb2]

/-- Witness for C8 at a concrete ScenarioResults value with one group,
two scenarios and a one-month horizon. -/
theorem flat_table_shape_witness :
    ((([("A", [("x", [("a", [⟨1, 1, 2, 3, 4, 5, 3, 0⟩]),
            ("b", [⟨1, 1, 2, 3, 4, 5, 3, 0⟩])])])] :
        List (String × List (String × List (String × List SummaryRow)))).map
          Prod.fst).Nodup) ∧
      (scenarios_to_flat_df
          [("A", [("x", [("a", [⟨1, 1, 2, 3, 4, 5, 3, 0⟩]),
            ("b", [⟨1, 1, 2, 3, 4, 5, 3, 0⟩])])])]).length =
        (([("A", [("x", [("a", [(⟨1, 1, 2, 3, 4, 5, 3, 0⟩ : SummaryRow)]),
            ("b", [⟨1, 1, 2, 3, 4, 5, 3, 0⟩])])])].map
          (fun p => (p.2.map (fun q => q.2.length * 1)).sum)).sum) ∧
      ((scenarios_to_flat_df
          [("A", [("x", [("a", [⟨1, 1, 2, 3, 4, 5, 3, 0⟩]),
            ("b", [⟨1, 1, 2, 3, 4, 5, 3, 0⟩])])])]).map
        (fun r => (r.facility, r.metric, r.scenario, r.month))).Nodup := by
  refine ⟨by decide, ?_⟩
  exact flat_table_shape
    [("A", [("x", [("a", [⟨1, 1, 2, 3, 4, 5, 3, 0⟩]),
      ("b", [⟨1, 1, 2, 3, 4, 5, 3, 0⟩])])])] 1
    (by decide) (by decide) (by decide) (by decide)

/-- Claim C6: for every input dataset, `run_all_scenarios` never raises for
a (facility, metric) group whose time-sorted series has fewer than 3
observations — the run succeeds and such a group is silently omitted (every
(facility, metric) entry present has a series of at least 3 observations,
so a 2-observation group has no entry), while a group with at least 3
observations (in particular exactly 3) is present with one
ProjectionSummary per configured scenario.  (`num_simulations ≥ 1` is the
configuration invariant the spec guarantees.) -/
theorem skip_policy (noise : ℕ → ℚ) (sqrtQ : ℚ → ℚ) (df : List Obs)
    (variations : List (String × ℚ)) (num_sims : ℕ) (horizons : List ℕ)
    (hn : 1 ≤ num_sims) :
    ∃ res, run_all_scenarios noise sqrtQ df variations num_sims horizons =
        some res ∧
      (∀ f ms, (f, ms) ∈ res → ∀ m ss, (m, ss) ∈ ms →
        3 ≤ (valuesFor df f m).length) ∧
      (∀ f m, f ∈ uniqueKeys (df.map (fun r => r.facility)) →
        m ∈ uniqueKeys (df.map (fun r => r.metric)) →
        3 ≤ (valuesFor df f m).length →
        ∃ ms ss, (f, ms) ∈ res ∧ (m, ss) ∈ ms ∧
          ss.map Prod.fst = variations.map Prod.fst) := by
  refine ⟨(uniqueKeys (df.map (fun r => r.facility))).map (fun f =>
      (f, ((uniqueKeys (df.map (fun r => r.metric))).filter
        (fun m => 3 ≤ (valuesFor df f m).length)).map (fun m =>
          (m, variations.map (fun v =>
            (v.1, projectRows noise sqrtQ (valuesFor df f m)
              (horizons.foldl max 0) v.2 num_sims)))))), ?_, ?_, ?_⟩
  · unfold run_all_scenarios
    refine optMap_eq_some_of _ _ _ ?_
    intro f hf
    rw [optMap_eq_some_of _ (fun m =>
      (m, variations.map (fun v =>
        (v.1, projectRows noise sqrtQ (valuesFor df f m)
          (horizons.foldl max 0) v.2 num_sims)))) _ ?_]
    · rfl
    · intro m hm
      rw [optMap_eq_some_of _ (fun v =>
        (v.1, projectRows noise sqrtQ (valuesFor df f m)
          (horizons.foldl max 0) v.2 num_sims)) _ ?_]
      · rfl
      · intro v hv
        rw [project_metric_eq_some _ _ _ _ _ hn]
        rfl
  · intro f ms hfm m ss hms
    obtain ⟨f0, hf0, heq⟩ := List.mem_map.mp hfm
    injection heq with h1 h2
    subst h1
    subst h2
    obtain ⟨m0, hm0, heq2⟩ := List.mem_map.mp hms
    injection heq2 with h3 h4
    subst h3
    exact of_decide_eq_true (List.mem_filter.mp hm0).2
  · intro f m hf hm h3
    refine ⟨_, _, List.mem_map.mpr ⟨f, hf, rfl⟩,
      List.mem_map.mpr ⟨m, List.mem_filter.mpr ⟨hm, decide_eq_true h3⟩, rfl⟩, ?_⟩
    rw [List.map_map]
    rfl

/-- Witness for C6 on a concrete dataset: facility A has metric x with 3
observations (present) and metric y with 2 observations (absent). -/
theorem skip_policy_witness :
    1 ≤ 1 ∧
      ∃ res, run_all_scenarios (fun _ => 0) (fun _ => 0)
          [⟨"A", "x", 0, 1⟩, ⟨"A", "x", 1, 2⟩, ⟨"A", "x", 2, 3⟩,
            ⟨"A", "y", 0, 1⟩, ⟨"A", "y", 1, 2⟩]
          [("baseline", 1)] 1 [2] = some res ∧
        (∀ f ms, (f, ms) ∈ res → ∀ m ss, (m, ss) ∈ ms →
          3 ≤ (valuesFor
            [⟨"A", "x", 0, 1⟩, ⟨"A", "x", 1, 2⟩, ⟨"A", "x", 2, 3⟩,
              ⟨"A", "y", 0, 1⟩, ⟨"A", "y", 1, 2⟩] f m).length) ∧
        (∀ f m,
          f ∈ uniqueKeys (([⟨"A", "x", 0, 1⟩, ⟨"A", "x", 1, 2⟩,
            ⟨"A", "x", 2, 3⟩, ⟨"A", "y", 0, 1⟩,
            ⟨"A", "y", 1, 2⟩] : List Obs).map (fun r => r.facility)) →
          m ∈ uniqueKeys (([⟨"A", "x", 0, 1⟩, ⟨"A", "x", 1, 2⟩,
            ⟨"A", "x", 2, 3⟩, ⟨"A", "y", 0, 1⟩,
            ⟨"A", "y", 1, 2⟩] : List Obs).map (fun r => r.metric)) →
          3 ≤ (valuesFor
            [⟨"A", "x", 0, 1⟩, ⟨"A", "x", 1, 2⟩, ⟨"A", "x", 2, 3⟩,
              ⟨"A", "y", 0, 1⟩, ⟨"A", "y", 1, 2⟩] f m).length →
          ∃ ms ss, (f, ms) ∈ res ∧ (m, ss) ∈ ms ∧
            ss.map Prod.fst = ([("baseline", (1 : ℚ))].map Prod.fst)) :=
  ⟨le_refl 1,
    skip_policy (fun _ => 0) (fun _ => 0)
      [⟨"A", "x", 0, 1⟩, ⟨"A", "x", 1, 2⟩, ⟨"A", "x", 2, 3⟩,
        ⟨"A", "y", 0, 1⟩, ⟨"A", "y", 1, 2⟩]
      [("baseline", 1)] 1 [2] (le_refl 1)⟩

end ScenarioModeling
